import Mathlib

/-!
Verification of the miva repository: shallow embeddings of the dataset
index/padding pipeline (`src/training/src/pl_module.py`) and of the
model components in `src/MIVRA/mwm/llama.py` (KV cache, attention paths,
RMSNorm, rotary embedding, S6/Mamba block), with theorems settling the
specification claims about them.

Numeric conventions: exact arithmetic stands in for floating point.
List/`ℕ`/`ℚ` embeddings are computable; the RMSNorm and rotary claims
need `Real.sqrt`/`Real.cos`/`Real.sin` and live over `ℝ`.
-/

/-! ### Dataset index resolution (PileRandomIODataset.__init__ / _get_db_and_idx) -/

/-- Embeds the `__init__` loop of `PileRandomIODataset`: `self.length` runs over
the per-shard row counts and each running total is appended to `index_keys`.
`cumFrom base counts` is the list of running totals starting from `base`;
the dataset uses `cumFrom 0`. The totals are non-decreasing, so the
`SortedList` holds them in exactly this order. -/
def cumFrom (base : ℕ) : List ℕ → List ℕ
  | [] => []
  | c :: cs => (base + c) :: cumFrom (base + c) cs

/-- The `index_keys` structure of the dataset: cumulative per-shard row counts. -/
def cumSums (counts : List ℕ) : List ℕ := cumFrom 0 counts

/-- Embeds `PileRandomIODataset._get_db_and_idx`:
`key = index_keys.bisect_left(idx + 1)` is the first position whose
cumulative count is `≥ idx + 1`, which is `List.findIdx` of that predicate
(`bisect_left` on a sorted list returns the leftmost insertion point).
`self.index[key]` raises `IndexError` when `key` is past the end, embedded
as `none`. Otherwise the shard id and the local row id
`idx - key_offset` are returned. -/
def getDbAndIdx (counts : List ℕ) (idx : ℕ) : Option (ℕ × ℕ) :=
  let keys := cumSums counts
  let key := keys.findIdx (fun c => decide (idx + 1 ≤ c))
  if key < counts.length then
    let keyOffset := if key = 0 then 0 else keys.getD (key - 1) 0
    some (key, idx - keyOffset)
  else
    none

/-! ### Row padding and loss weights (PileRandomIODataset.__getitem__) -/

/-- Embeds the weights construction of `__getitem__`:
`weights = [0]*(pred_start-1) + [1]*(len(tokens)-pred_start)` followed by
`weights += [0]*(max_seq_len - len(weights))`. Python's `[a]*n` with
negative `n` is empty, which truncated `ℕ` subtraction reproduces. -/
def lossWeights (tokLen predStart maxSeqLen : ℕ) : List ℕ :=
  let w := List.replicate (predStart - 1) 0 ++ List.replicate (tokLen - predStart) 1
  w ++ List.replicate (maxSeqLen - w.length) 0

/-- Embeds the token padding of `__getitem__`:
`tokens = tokens + [pad_id]*(max_seq_len + 1 - len(tokens))`. -/
def padTokens (tokens : List ℕ) (padId maxSeqLen : ℕ) : List ℕ :=
  tokens ++ List.replicate (maxSeqLen + 1 - tokens.length) padId

/-! ### Batch shift and mask (Pile.on_after_batch_transfer) -/

/-- Embeds `Pile.on_after_batch_transfer` for one batch row:
`x, y = batch[:, :-1], batch[:, 1:]`, `mask = x != 0` cast to `uint8`.
The mask compares against the literal token id `0`, with no reference to
the tokenizer's pad id. -/
def onAfterBatchTransfer (b : List ℤ) : List ℤ × List ℤ × List ℕ :=
  (b.dropLast, b.drop 1, b.dropLast.map (fun t => if t = 0 then 0 else 1))

/-! ### Generic findIdx / getD lemmas used for the index-resolution claim -/

lemma findIdx_getD_true {α : Type} (p : α → Bool) (d : α) :
    ∀ l : List α, l.findIdx p < l.length → p (l.getD (l.findIdx p) d) = true := by
  intro l
  induction l with
  | nil => simp
  | cons a l ih =>
    rw [List.findIdx_cons]
    cases h : p a with
    | true => intro _; simpa using h
    | false =>
      simp only [cond_false, List.length_cons]
      intro hlen
      simpa using ih (by omega)

lemma lt_findIdx_getD_false {α : Type} (p : α → Bool) (d : α) :
    ∀ (l : List α) (j : ℕ), j < l.findIdx p → p (l.getD j d) = false := by
  intro l
  induction l with
  | nil => intro j hj; rw [List.findIdx_nil] at hj; omega
  | cons a l ih =>
    intro j hj
    rw [List.findIdx_cons] at hj
    cases h : p a with
    | true => simp [h] at hj
    | false =>
      simp only [h, cond_false] at hj
      cases j with
      | zero => simpa using h
      | succ j => simpa using ih j (by omega)

lemma getD_true_findIdx_le {α : Type} (p : α → Bool) (d : α) :
    ∀ (l : List α) (j : ℕ), j < l.length → p (l.getD j d) = true → l.findIdx p ≤ j := by
  intro l
  induction l with
  | nil => simp
  | cons a l ih =>
    intro j hj hp
    rw [List.findIdx_cons]
    cases h : p a with
    | true => simp
    | false =>
      simp only [cond_false]
      cases j with
      | zero => simp only [List.getD_cons_zero] at hp; rw [hp] at h; cases h
      | succ j =>
        have := ih j (by simpa using hj) (by simpa using hp)
        omega

lemma cumFrom_length (base : ℕ) (l : List ℕ) : (cumFrom base l).length = l.length := by
  induction l generalizing base with
  | nil => rfl
  | cons c cs ih => simp [cumFrom, ih]

lemma cumFrom_getD (l : List ℕ) :
    ∀ (base k : ℕ), k < l.length → (cumFrom base l).getD k 0 = base + (l.take (k + 1)).sum := by
  induction l with
  | nil => intro base k h; simp at h
  | cons c cs ih =>
    intro base k h
    cases k with
    | zero => simp [cumFrom]
    | succ k =>
      have := ih (base + c) k (by simpa using h)
      simp only [cumFrom, List.getD_cons_succ, List.take_succ_cons, List.sum_cons]
      omega

/-! ### KV cache (FlaxLLaMAAttention._concatenate_to_cache)

The cache is collapsed to one batch row, one head and one head-dimension
coordinate, so the key and value buffers are rational sequences of length
`max_length`. -/

/-- One per-layer KV-cache entry: `cached_key`, `cached_value`, `cache_index`. -/
structure KVCache where
  bufK : List ℚ
  bufV : List ℚ
  index : ℕ
  deriving DecidableEq, Repr

/-- Embeds `jax.lax.dynamic_update_slice` on the sequence axis: the start
index is clamped so that the update fits entirely inside the operand
(it is never split or rejected). -/
def dynUpdateSlice (buf upd : List ℚ) (start : ℕ) : List ℚ :=
  let s := min start (buf.length - upd.length)
  buf.take s ++ upd ++ buf.drop (s + upd.length)

/-- Embeds the initialized branch of `_concatenate_to_cache` for new slices
of length `L`. For `L = 1` (the `query.shape[1] == 1` branch) the
`shard_map`/`lax.cond` write collapses globally to: the shard owning
position `cache_index` writes there when `cache_index < max_length`, and
every shard is a no-op otherwise. For `L ≠ 1` the write is a
`dynamic_update_slice` at `cache_index`. In both branches
`cache_index` then advances by the query length `L`. The key/value streams
the code hands back to attention are exactly the updated full buffers, so
they are read off the returned cache. -/
def concatenateToCache (c : KVCache) (newK newV : List ℚ) : KVCache :=
  if newK.length = 1 then
    ⟨if c.index < c.bufK.length then c.bufK.set c.index (newK.getD 0 0) else c.bufK,
     if c.index < c.bufV.length then c.bufV.set c.index (newV.getD 0 0) else c.bufV,
     c.index + newK.length⟩
  else
    ⟨dynUpdateSlice c.bufK newK c.index, dynUpdateSlice c.bufV newV c.index,
     c.index + newK.length⟩

/-- The zero-filled cache allocated on `init_cache` for a given `max_length`. -/
def initCache (maxLen : ℕ) : KVCache :=
  ⟨List.replicate maxLen 0, List.replicate maxLen 0, 0⟩

/-! ### Supporting lemmas on sums, replicate and getD -/

lemma take_sum_le (l : List ℕ) (m : ℕ) : (l.take m).sum ≤ l.sum := by
  conv_rhs => rw [← List.take_append_drop m l]
  rw [List.sum_append]
  omega

lemma getD_replicate_lt {α : Type} (n i : ℕ) (a d : α) (h : i < n) :
    (List.replicate n a).getD i d = a := by
  simp [List.getD_eq_getElem?_getD, List.getElem?_replicate, h]

lemma getD_of_len_le {α : Type} (l : List α) (i : ℕ) (d : α) (h : l.length ≤ i) :
    l.getD i d = d := by
  simp [List.getD_eq_getElem?_getD, List.getElem?_eq_none, h]

/-! ### Claim C5: dataset index resolution -/

/-- C5: for every list of per-shard row counts and every global index
strictly below the total row count, `_get_db_and_idx` returns the smallest
shard whose cumulative count exceeds the index, with local row id the
index minus the previous shard's cumulative count; for counts `[3, 5, 2]`
it resolves the indices 0, 2, 3, 9 as claimed; and a global index equal to
(or past) the total row count fails (embedded as `none`). -/
theorem c5_getDbAndIdx_resolution (counts : List ℕ) (idx : ℕ) :
    (idx < counts.sum →
      ∃ k, getDbAndIdx counts idx = some (k, idx - (counts.take k).sum) ∧
        idx < (counts.take (k + 1)).sum ∧
        ∀ j, j < k → (counts.take (j + 1)).sum ≤ idx) ∧
    (counts.sum ≤ idx → getDbAndIdx counts idx = none) ∧
    getDbAndIdx [3, 5, 2] 0 = some (0, 0) ∧
    getDbAndIdx [3, 5, 2] 2 = some (0, 2) ∧
    getDbAndIdx [3, 5, 2] 3 = some (1, 0) ∧
    getDbAndIdx [3, 5, 2] 9 = some (2, 1) ∧
    getDbAndIdx [3, 5, 2] 10 = none := by
  have hlen : (cumSums counts).length = counts.length := cumFrom_length 0 counts
  refine ⟨?_, ?_, by decide, by decide, by decide, by decide, by decide⟩
  · intro hidx
    set p : ℕ → Bool := fun c => decide (idx + 1 ≤ c) with hp
    set k := (cumSums counts).findIdx p with hk
    have hne : counts.length ≠ 0 := by
      intro h0
      rw [List.length_eq_zero] at h0
      subst h0
      simp at hidx
    have hlast : (cumSums counts).getD (counts.length - 1) 0 = counts.sum := by
      have h1 := cumFrom_getD counts 0 (counts.length - 1) (by omega)
      have h2 : counts.take (counts.length - 1 + 1) = counts := by
        have h3 : counts.length - 1 + 1 = counts.length := by omega
        rw [h3, List.take_length]
      rw [cumSums, h1, h2]
      omega
    have hklt : k < counts.length := by
      have hple : p ((cumSums counts).getD (counts.length - 1) 0) = true := by
        rw [hlast, hp]
        simpa using hidx
      have := getD_true_findIdx_le p 0 (cumSums counts) (counts.length - 1)
        (by omega) hple
      omega
    have hoff : (if k = 0 then 0 else (cumSums counts).getD (k - 1) 0) =
        (counts.take k).sum := by
      by_cases hk0 : k = 0
      · simp [hk0]
      · rw [if_neg hk0, cumSums, cumFrom_getD counts 0 (k - 1) (by omega)]
        have : k - 1 + 1 = k := by omega
        rw [this]
        omega
    have hres : getDbAndIdx counts idx = some (k, idx - (counts.take k).sum) := by
      rw [getDbAndIdx]
      simp only [← hp, ← hk]
      rw [if_pos hklt, hoff]
    refine ⟨k, hres, ?_, ?_⟩
    · have hgt := findIdx_getD_true p 0 (cumSums counts) (by omega)
      rw [← hk] at hgt
      rw [cumSums, cumFrom_getD counts 0 k (by omega)] at hgt
      rw [hp] at hgt
      simp at hgt
      omega
    · intro j hj
      have hflt := lt_findIdx_getD_false p 0 (cumSums counts) j (by omega)
      rw [cumSums, cumFrom_getD counts 0 j (by omega)] at hflt
      rw [hp] at hflt
      simp at hflt
      omega
  · intro hge
    set p : ℕ → Bool := fun c => decide (idx + 1 ≤ c) with hp
    set k := (cumSums counts).findIdx p with hk
    have hknl : ¬ k < counts.length := by
      intro hklt
      have hgt := findIdx_getD_true p 0 (cumSums counts) (by omega)
      rw [← hk] at hgt
      rw [cumSums, cumFrom_getD counts 0 k (by omega)] at hgt
      rw [hp] at hgt
      simp at hgt
      have := take_sum_le counts (k + 1)
      omega
    rw [getDbAndIdx]
    simp only [← hp, ← hk]
    rw [if_neg hknl]

/-- Witness for C5: the resolution theorem applied to counts `[3, 5, 2]`
at global index 4, whose total row count 10 exceeds 4. -/
theorem c5_getDbAndIdx_resolution_witness :
    ∃ k, getDbAndIdx [3, 5, 2] 4 = some (k, 4 - (([3, 5, 2] : List ℕ).take k).sum) ∧
      4 < (([3, 5, 2] : List ℕ).take (k + 1)).sum ∧
      ∀ j, j < k → (([3, 5, 2] : List ℕ).take (j + 1)).sum ≤ 4 :=
  (c5_getDbAndIdx_resolution [3, 5, 2] 4).1 (by decide)

/-! ### Claim C6: loss-weight mask and padding -/

/-- C6: for every fetched row whose token count and prediction offset are in
range, the loss-weight list has exactly `max_seq_len` entries, holding 0 at
the positions before the first predicted token (weight position `i` scores
the prediction of token `i + 1`), 1 on the predicted span ending at token
`len(tokens) - 1`, and 0 on the right padding; the token list is
right-padded with the pad id to exactly `max_seq_len + 1` entries with the
original tokens unchanged; and the claim's concrete case — tokens of
length 5, `pred_start = 2`, `max_seq_len = 8` — produces weights
`[0, 1, 1, 1, 0, 0, 0, 0]` and 9 padded tokens. -/
theorem c6_lossWeights_padTokens (tokens : List ℕ) (predStart maxSeqLen padId : ℕ)
    (hps : 1 ≤ predStart) (hle : predStart ≤ tokens.length)
    (hlen : tokens.length ≤ maxSeqLen + 1) :
    (lossWeights tokens.length predStart maxSeqLen).length = maxSeqLen ∧
    (∀ i, i < maxSeqLen →
      (lossWeights tokens.length predStart maxSeqLen).getD i 0 =
        if predStart - 1 ≤ i ∧ i + 1 < tokens.length then 1 else 0) ∧
    (padTokens tokens padId maxSeqLen).length = maxSeqLen + 1 ∧
    (∀ i, i < tokens.length →
      (padTokens tokens padId maxSeqLen).getD i 0 = tokens.getD i 0) ∧
    (∀ i, tokens.length ≤ i → i < maxSeqLen + 1 →
      (padTokens tokens padId maxSeqLen).getD i 0 = padId) ∧
    lossWeights 5 2 8 = [0, 1, 1, 1, 0, 0, 0, 0] ∧
    padTokens [21, 22, 23, 24, 25] 7 8 = [21, 22, 23, 24, 25, 7, 7, 7, 7] := by
  have hwlen : (List.replicate (predStart - 1) (0 : ℕ) ++
      List.replicate (tokens.length - predStart) 1).length = tokens.length - 1 := by
    simp [List.length_append]
    omega
  have hwe : lossWeights tokens.length predStart maxSeqLen =
      (List.replicate (predStart - 1) 0 ++ List.replicate (tokens.length - predStart) 1) ++
        List.replicate (maxSeqLen - (List.replicate (predStart - 1) (0 : ℕ) ++
          List.replicate (tokens.length - predStart) 1).length) 0 := rfl
  refine ⟨?_, ?_, ?_, ?_, ?_, by decide, by decide⟩
  · rw [hwe]
    simp only [List.length_append, List.length_replicate]
    omega
  · intro i hi
    rw [hwe]
    by_cases h1 : i < predStart - 1
    · rw [List.getD_append _ _ _ _ (by simp [List.length_append]; omega),
        List.getD_append _ _ _ _ (by simp; omega),
        getD_replicate_lt _ _ _ _ h1]
      rw [if_neg (by omega)]
    · by_cases h2 : i + 1 < tokens.length
      · rw [List.getD_append _ _ _ _ (by simp [List.length_append]; omega),
          List.getD_append_right _ _ _ _ (by simp; omega)]
        simp only [List.length_replicate]
        rw [getD_replicate_lt _ _ _ _ (by omega)]
        rw [if_pos (by omega)]
      · rw [List.getD_append_right _ _ _ _ (by rw [hwlen]; omega)]
        rw [hwlen, getD_replicate_lt _ _ _ _ (by omega)]
        rw [if_neg (by omega)]
  · rw [padTokens]
    simp only [List.length_append, List.length_replicate]
    omega
  · intro i hi
    rw [padTokens, List.getD_append _ _ _ _ hi]
  · intro i hge hlt
    rw [padTokens, List.getD_append_right _ _ _ _ hge,
      getD_replicate_lt _ _ _ _ (by omega)]

/-- Witness for C6: the padding theorem applied to the claim's concrete
row — five tokens, `pred_start = 2`, `max_seq_len = 8`, pad id 7. -/
theorem c6_lossWeights_padTokens_witness :
    lossWeights 5 2 8 = [0, 1, 1, 1, 0, 0, 0, 0] ∧
    padTokens [21, 22, 23, 24, 25] 7 8 = [21, 22, 23, 24, 25, 7, 7, 7, 7] :=
  ⟨(c6_lossWeights_padTokens [21, 22, 23, 24, 25] 2 8 7 (by decide) (by decide)
      (by decide)).2.2.2.2.2.1,
    (c6_lossWeights_padTokens [21, 22, 23, 24, 25] 2 8 7 (by decide) (by decide)
      (by decide)).2.2.2.2.2.2⟩

/-! ### Claim C10: batch shift and attention mask -/

/-- C10: `on_after_batch_transfer` returns `x = b[:, :-1]` and
`y = b[:, 1:]`, so `y` is the next-token shift of `x`, and the attention
mask is the comparison `x != 0` against the literal token id 0 — the
definition takes no pad id at all, so a real token with id 0 is masked out
(as in the concrete row `[5, 0, 7]`) and a nonzero pad id would not be. -/
theorem c10_onAfterBatchTransfer (b : List ℤ) :
    (onAfterBatchTransfer b).1 = b.dropLast ∧
    (onAfterBatchTransfer b).2.1 = b.drop 1 ∧
    (∀ t, t + 2 < b.length →
      (onAfterBatchTransfer b).2.1.getD t 0 = (onAfterBatchTransfer b).1.getD (t + 1) 0) ∧
    (∀ t, t + 1 < b.length →
      (onAfterBatchTransfer b).2.1.getD t 0 = b.getD (t + 1) 0) ∧
    (∀ t, t + 1 < b.length →
      (onAfterBatchTransfer b).2.2.getD t 1 =
        if (onAfterBatchTransfer b).1.getD t 0 = 0 then 0 else 1) ∧
    onAfterBatchTransfer [5, 0, 7] = ([5, 0], [0, 7], [1, 0]) := by
  have hx : ∀ t, t + 1 < b.length → (b.dropLast).getD t 0 = b.getD t 0 := by
    intro t ht
    rw [List.dropLast_eq_take]
    rw [List.getD_eq_getElem?_getD, List.getD_eq_getElem?_getD, List.getElem?_take]
    rw [if_pos (by omega)]
  refine ⟨rfl, rfl, ?_, ?_, ?_, by decide⟩
  · intro t ht
    show (b.drop 1).getD t 0 = (b.dropLast).getD (t + 1) 0
    rw [hx (t + 1) (by omega)]
    rw [List.getD_eq_getElem?_getD, List.getD_eq_getElem?_getD, List.getElem?_drop]
    rw [Nat.add_comm 1 t]
  · intro t ht
    show (b.drop 1).getD t 0 = b.getD (t + 1) 0
    rw [List.getD_eq_getElem?_getD, List.getD_eq_getElem?_getD, List.getElem?_drop]
    rw [Nat.add_comm 1 t]
  · intro t ht
    show (b.dropLast.map (fun v => if v = 0 then 0 else 1)).getD t 1 =
      if b.dropLast.getD t 0 = 0 then 0 else 1
    have htx : t < b.dropLast.length := by
      rw [List.length_dropLast]
      omega
    rw [List.getD_eq_getElem?_getD, List.getElem?_map]
    rw [List.getElem?_eq_getElem htx]
    rw [List.getD_eq_getElem?_getD, List.getElem?_eq_getElem htx]
    rfl

/-- Witness for C10: the shift-and-mask theorem applied to the row
`[5, 0, 7]`, taking its next-token conjunct at position 0. -/
theorem c10_onAfterBatchTransfer_witness :
    (onAfterBatchTransfer [5, 0, 7]).2.1.getD 0 0 = ([5, 0, 7] : List ℤ).getD 1 0 :=
  (c10_onAfterBatchTransfer [5, 0, 7]).2.2.2.1 0 (by decide)

/-! ### Cache write characterization -/

lemma dynUpdateSlice_length (buf upd : List ℚ) (start : ℕ) (h : upd.length ≤ buf.length) :
    (dynUpdateSlice buf upd start).length = buf.length := by
  rw [dynUpdateSlice]
  simp only [List.length_append, List.length_take, List.length_drop]
  have hs : min start (buf.length - upd.length) ≤ buf.length - upd.length := min_le_right _ _
  omega

lemma getD_take_lt (buf : List ℚ) (s i : ℕ) (h : i < s) :
    (buf.take s).getD i 0 = buf.getD i 0 := by
  rw [List.getD_eq_getElem?_getD, List.getD_eq_getElem?_getD, List.getElem?_take, if_pos h]

lemma getD_drop (buf : List ℚ) (n j : ℕ) :
    (buf.drop n).getD j 0 = buf.getD (n + j) 0 := by
  rw [List.getD_eq_getElem?_getD, List.getD_eq_getElem?_getD, List.getElem?_drop]

lemma dynUpdateSlice_getD (buf upd : List ℚ) (start i : ℕ) (h : upd.length ≤ buf.length) :
    (dynUpdateSlice buf upd start).getD i 0 =
      if min start (buf.length - upd.length) ≤ i ∧
          i < min start (buf.length - upd.length) + upd.length then
        upd.getD (i - min start (buf.length - upd.length)) 0
      else buf.getD i 0 := by
  rw [dynUpdateSlice]
  have hs : min start (buf.length - upd.length) ≤ buf.length - upd.length := min_le_right _ _
  set s := min start (buf.length - upd.length) with hsdef
  have hts : (buf.take s).length = s := by
    rw [List.length_take]
    omega
  have hts2 : (buf.take s ++ upd).length = s + upd.length := by
    rw [List.length_append, hts]
  by_cases h1 : i < s
  · rw [List.getD_append _ _ _ _ (by rw [hts2]; omega),
      List.getD_append _ _ _ _ (by rw [hts]; omega),
      getD_take_lt _ _ _ h1, if_neg (by omega)]
  · by_cases h2 : i < s + upd.length
    · rw [List.getD_append _ _ _ _ (by rw [hts2]; omega),
        List.getD_append_right _ _ _ _ (by rw [hts]; omega),
        hts, if_pos (by omega)]
    · rw [List.getD_append_right _ _ _ _ (by rw [hts2]; omega), hts2, getD_drop,
        if_neg (by omega)]
      congr 1
      omega

/-! ### Claim C2: cache overflow behavior (counterexample and actual behavior) -/

/-- C2 counterexample: an overflowing incremental write does not fail.
With `max_length = 2` and cursor already at 2, a single-token call returns
normally — the new key/value `5`/`6` are silently dropped and the cursor
still advances to 3. With cursor 1 and a two-token slice, the write start
is silently clamped from 1 to 0 (`dynamic_update_slice` semantics), so
position 0 is overwritten: the call clamps and truncates rather than
raising. -/
theorem c2_overflow_counterexample :
    concatenateToCache ⟨[0, 0], [0, 0], 2⟩ [5] [6] = ⟨[0, 0], [0, 0], 3⟩ ∧
    concatenateToCache ⟨[1, 2], [3, 4], 1⟩ [7, 9] [8, 10] = ⟨[7, 9], [8, 10], 3⟩ := by
  exact ⟨rfl, rfl⟩

/-- C2 as amended: an incremental call whose write would pass `max_length`
never fails; the cursor always advances by the slice length `L`; a
single-token write whose cursor is past the end is silently dropped; and a
multi-token write is clamped back to start `max_length - L` — strictly
before the cursor — silently overwriting earlier positions. -/
theorem c2_cache_overflow_behavior (c : KVCache) (newK newV : List ℚ)
    (hKV : c.bufV.length = c.bufK.length) (hnKV : newV.length = newK.length)
    (hfit : newK.length ≤ c.bufK.length)
    (hover : c.bufK.length < c.index + newK.length) :
    (concatenateToCache c newK newV).index = c.index + newK.length ∧
    (concatenateToCache c newK newV).bufK.length = c.bufK.length ∧
    (concatenateToCache c newK newV).bufV.length = c.bufV.length ∧
    (newK.length = 1 → (concatenateToCache c newK newV).bufK = c.bufK ∧
      (concatenateToCache c newK newV).bufV = c.bufV) ∧
    (1 < newK.length → c.bufK.length - newK.length < c.index ∧
      ∀ j, j < newK.length →
        (concatenateToCache c newK newV).bufK.getD (c.bufK.length - newK.length + j) 0 =
          newK.getD j 0) := by
  by_cases hL : newK.length = 1
  · have hidx : ¬ c.index < c.bufK.length := by omega
    have hidxV : ¬ c.index < c.bufV.length := by omega
    rw [concatenateToCache, if_pos hL, if_neg hidx, if_neg hidxV]
    refine ⟨rfl, rfl, rfl, fun _ => ⟨rfl, rfl⟩, fun h2 => absurd hL (by omega)⟩
  · rw [concatenateToCache, if_neg hL]
    have hfitV : newV.length ≤ c.bufV.length := by omega
    have hmin : min c.index (c.bufK.length - newK.length) = c.bufK.length - newK.length := by
      omega
    have hminV : min c.index (c.bufV.length - newV.length) = c.bufV.length - newV.length := by
      omega
    refine ⟨rfl, dynUpdateSlice_length _ _ _ hfit, dynUpdateSlice_length _ _ _ hfitV,
      fun h1 => absurd h1 hL, fun h2 => ⟨by omega, fun j hj => ?_⟩⟩
    rw [dynUpdateSlice_getD _ _ _ _ hfit, hmin, if_pos (by omega)]
    congr 1
    omega

/-- Witness for C2: the overflow-behavior theorem applied to the cache
`⟨[1, 2], [3, 4], 1⟩` of capacity 2 receiving the two-token slice
`[7, 9]`/`[8, 10]`. -/
theorem c2_cache_overflow_behavior_witness :
    (concatenateToCache ⟨[1, 2], [3, 4], 1⟩ [7, 9] [8, 10]).index = 3 ∧
    (concatenateToCache ⟨[1, 2], [3, 4], 1⟩ [7, 9] [8, 10]).bufK.getD 0 0 = 7 ∧
    (concatenateToCache ⟨[1, 2], [3, 4], 1⟩ [7, 9] [8, 10]).bufK.getD 1 0 = 9 := by
  have h := c2_cache_overflow_behavior ⟨[1, 2], [3, 4], 1⟩ [7, 9] [8, 10]
    (by decide) (by decide) (by decide) (by decide)
  exact ⟨h.1, (h.2.2.2.2 (by decide)).2 0 (by decide), (h.2.2.2.2 (by decide)).2 1 (by decide)⟩

/-! ### Standard softmax attention (spec-modelled)

The attention kernels themselves (`ring_attention_standard`,
`ring_attention` / blockwise attention) are imported by `llama.py` from the
external `lwm.ring_attention` module and are not under `src/`; they are
modelled here from §4.4 of the spec. Heads and the head dimension are
collapsed to one coordinate, and the exponential of the softmax is an
abstract map `E` assumed positive and sum-to-product (as `exp` is); the
boolean mask (additive bias `0` / `-inf` in the code) becomes a filter on
the allowed key positions. -/

/-- Modelled from the spec: one row of standard masked softmax attention —
the `E`-weighted average of the values at the allowed key positions. -/
def attnRow (E : ℚ → ℚ) (score v : ℕ → ℚ) (allow : ℕ → Bool) (len : ℕ) : ℚ :=
  (((List.range len).filter allow).map (fun j => E (score j) * v j)).sum /
    (((List.range len).filter allow).map (fun j => E (score j))).sum

/-- Embeds the cached standard-mode branch of `FlaxLLaMAAttention.__call__`
for one single-token decode step: `mask_shift` is read from `cache_index`
before `_concatenate_to_cache` runs, the new key/value are written at the
cursor, the shifted causal mask allows buffer positions `j ≤ mask_shift`,
and attention runs over the whole returned buffer (scores are query·key
products, head dimension collapsed to 1). -/
def decodeStep (E : ℚ → ℚ) (c : KVCache) (q k v : ℚ) : KVCache × ℚ :=
  (concatenateToCache c [k] [v],
   attnRow E (fun j => q * (concatenateToCache c [k] [v]).bufK.getD j 0)
     (fun j => (concatenateToCache c [k] [v]).bufV.getD j 0)
     (fun j => decide (j ≤ c.index)) (concatenateToCache c [k] [v]).bufK.length)

/-- Token-by-token decoding for a given number of steps, starting at
position `t` with the given cache, collecting the per-step outputs. -/
def decodeOuts (E : ℚ → ℚ) (q k v : ℕ → ℚ) : KVCache → ℕ → ℕ → List ℚ
  | _, _, 0 => []
  | c, t, steps + 1 =>
    (decodeStep E c (q t) (k t) (v t)).2 ::
      decodeOuts E q k v (decodeStep E c (q t) (k t) (v t)).1 (t + 1) steps

/-- Embeds the uncached standard-mode branch (a prefill call over `n`
tokens): lower-triangular causal mask `j ≤ i`, all-ones attention mask,
a single segment. -/
def prefillOut (E : ℚ → ℚ) (q k v : ℕ → ℚ) (i n : ℕ) : ℚ :=
  attnRow E (fun j => q i * k j) (fun j => v j) (fun j => decide (j ≤ i)) n

lemma filter_range_le (t m : ℕ) (ht : t < m) :
    (List.range m).filter (fun j => decide (j ≤ t)) = List.range (t + 1) := by
  induction m with
  | zero => omega
  | succ m ih =>
    rw [List.range_succ, List.filter_append]
    by_cases h : t = m
    · subst h
      have h1 : (List.range t).filter (fun j => decide (j ≤ t)) = List.range t := by
        apply List.filter_eq_self.mpr
        intro a ha
        rw [List.mem_range] at ha
        simpa using by omega
      have h2 : ([t].filter (fun j => decide (j ≤ t))) = [t] := by simp
      rw [h1, h2, ← List.range_succ]
    · have ht2 : t < m := by omega
      have h2 : ([m].filter (fun j => decide (j ≤ t))) = [] := by
        simp
        omega
      rw [ih ht2, h2, List.append_nil]

/-- In-bounds cache writes: when the new slice fits below `max_length`, the
`_concatenate_to_cache` embedding writes it at buffer offsets
`[index, index + L)`, leaves positions below the cursor unchanged, and
advances the cursor by exactly `L`. -/
lemma concatenateToCache_inbounds (c : KVCache) (newK newV : List ℚ)
    (hK : c.bufV.length = c.bufK.length) (hn : newV.length = newK.length)
    (hfit : c.index + newK.length ≤ c.bufK.length) :
    (concatenateToCache c newK newV).index = c.index + newK.length ∧
    (concatenateToCache c newK newV).bufK.length = c.bufK.length ∧
    (concatenateToCache c newK newV).bufV.length = c.bufV.length ∧
    (∀ j, j < newK.length →
      (concatenateToCache c newK newV).bufK.getD (c.index + j) 0 = newK.getD j 0 ∧
      (concatenateToCache c newK newV).bufV.getD (c.index + j) 0 = newV.getD j 0) ∧
    (∀ i, i < c.index →
      (concatenateToCache c newK newV).bufK.getD i 0 = c.bufK.getD i 0 ∧
      (concatenateToCache c newK newV).bufV.getD i 0 = c.bufV.getD i 0) := by
  by_cases hL : newK.length = 1
  · have hiK : c.index < c.bufK.length := by omega
    have hiV : c.index < c.bufV.length := by omega
    rw [concatenateToCache, if_pos hL, if_pos hiK, if_pos hiV]
    refine ⟨rfl, List.length_set _ _ _, List.length_set _ _ _, ?_, ?_⟩
    · intro j hj
      have hj0 : j = 0 := by omega
      subst hj0
      constructor
      · rw [Nat.add_zero, List.getD_eq_getElem?_getD, List.getElem?_set_self hiK]
        rfl
      · rw [Nat.add_zero, List.getD_eq_getElem?_getD, List.getElem?_set_self hiV]
        rfl
    · intro i hi
      constructor
      · rw [List.getD_eq_getElem?_getD, List.getElem?_set_ne (by omega)]
        exact (List.getD_eq_getElem?_getD _ _ _).symm
      · rw [List.getD_eq_getElem?_getD, List.getElem?_set_ne (by omega)]
        exact (List.getD_eq_getElem?_getD _ _ _).symm
  · rw [concatenateToCache, if_neg hL]
    have hfK : newK.length ≤ c.bufK.length := by omega
    have hfV : newV.length ≤ c.bufV.length := by omega
    have hmK : min c.index (c.bufK.length - newK.length) = c.index := by omega
    have hmV : min c.index (c.bufV.length - newV.length) = c.index := by omega
    refine ⟨rfl, dynUpdateSlice_length _ _ _ hfK, dynUpdateSlice_length _ _ _ hfV, ?_, ?_⟩
    · intro j hj
      constructor
      · rw [dynUpdateSlice_getD _ _ _ _ hfK, hmK, if_pos (by omega)]
        congr 1
        omega
      · rw [dynUpdateSlice_getD _ _ _ _ hfV, hmV, if_pos (by omega)]
        congr 1
        omega
    · intro i hi
      constructor
      · rw [dynUpdateSlice_getD _ _ _ _ hfK, hmK, if_neg (by omega)]
      · rw [dynUpdateSlice_getD _ _ _ _ hfV, hmV, if_neg (by omega)]

/-! ### Claim C4: incremental decode equals prefill -/

lemma decode_invariant (E : ℚ → ℚ) (q k v : ℕ → ℚ) (maxLen : ℕ) :
    ∀ (steps t : ℕ) (c : KVCache), c.bufK.length = maxLen → c.bufV.length = maxLen →
      c.index = t → (∀ j, j < t → c.bufK.getD j 0 = k j) →
      (∀ j, j < t → c.bufV.getD j 0 = v j) → t + steps ≤ maxLen →
      ∀ s, s < steps → (decodeOuts E q k v c t steps).getD s 0 =
        attnRow E (fun j => q (t + s) * k j) (fun j => v j)
          (fun j => decide (j ≤ t + s)) (t + s + 1) := by
  intro steps
  induction steps with
  | zero => intro t c _ _ _ _ _ _ s hs; omega
  | succ steps ih =>
    intro t c hlK hlV hidx hbK hbV hfit s hs
    have hlen1 : ([k t] : List ℚ).length = 1 := rfl
    have hlen1v : ([v t] : List ℚ).length = 1 := rfl
    have hw := concatenateToCache_inbounds c [k t] [v t] (by omega) rfl
      (by rw [hlen1]; omega)
    have hidx2 : (concatenateToCache c [k t] [v t]).index = t + 1 := by
      rw [hw.1, hidx, hlen1]
    have hlK2 : (concatenateToCache c [k t] [v t]).bufK.length = maxLen := by
      rw [hw.2.1, hlK]
    have hlV2 : (concatenateToCache c [k t] [v t]).bufV.length = maxLen := by
      rw [hw.2.2.1, hlV]
    have hbK2 : ∀ j, j < t + 1 → (concatenateToCache c [k t] [v t]).bufK.getD j 0 = k j := by
      intro j hj
      by_cases hjt : j < t
      · rw [(hw.2.2.2.2 j (by omega)).1]
        exact hbK j hjt
      · have hjeq : j = t := by omega
        subst hjeq
        have := (hw.2.2.2.1 0 (by simp)).1
        rw [hidx, Nat.add_zero] at this
        simpa using this
    have hbV2 : ∀ j, j < t + 1 → (concatenateToCache c [k t] [v t]).bufV.getD j 0 = v j := by
      intro j hj
      by_cases hjt : j < t
      · rw [(hw.2.2.2.2 j (by omega)).2]
        exact hbV j hjt
      · have hjeq : j = t := by omega
        subst hjeq
        have := (hw.2.2.2.1 0 (by simp)).2
        rw [hidx, Nat.add_zero] at this
        simpa using this
    cases s with
    | zero =>
      show (decodeStep E c (q t) (k t) (v t)).2 = _
      rw [decodeStep]
      simp only [Nat.add_zero]
      rw [attnRow, attnRow, hlK2, hidx]
      rw [filter_range_le t maxLen (by omega), filter_range_le t (t + 1) (by omega)]
      have hmape : ∀ (f g : ℕ → ℚ), (∀ j, j ≤ t → f j = g j) →
          (List.range (t + 1)).map f = (List.range (t + 1)).map g := by
        intro f g hfg
        apply List.map_congr_left
        intro a ha
        rw [List.mem_range] at ha
        exact hfg a (by omega)
      rw [hmape (fun j => E (q t * (concatenateToCache c [k t] [v t]).bufK.getD j 0) *
            (concatenateToCache c [k t] [v t]).bufV.getD j 0)
          (fun j => E (q t * k j) * v j)
          (by intro j hj; simp only [hbK2 j (by omega), hbV2 j (by omega)]),
        hmape (fun j => E (q t * (concatenateToCache c [k t] [v t]).bufK.getD j 0))
          (fun j => E (q t * k j))
          (by intro j hj; simp only [hbK2 j (by omega)])]
    | succ s =>
      show (decodeOuts E q k v (decodeStep E c (q t) (k t) (v t)).1 (t + 1) steps).getD s 0 = _
      have harr : t + (s + 1) = t + 1 + s := by omega
      rw [harr]
      exact ih (t + 1) (decodeStep E c (q t) (k t) (v t)).1 hlK2 hlV2 hidx2 hbK2 hbV2
        (by omega) s (by omega)

/-- C4: for every per-token query/key/value stream and every abstract
softmax exponential `E`, decoding token-by-token for `n ≤ max_length`
steps from a fresh cache produces, at every step `t`, exactly the same
attention output as row `t` of one prefill call over all `n` tokens; and
every in-bounds cache write places its `L` new key/value entries at buffer
offsets `[index, index + L)` and advances the cursor by exactly `L`. -/
theorem c4_incremental_decode_matches_prefill (E : ℚ → ℚ) (q k v : ℕ → ℚ)
    (maxLen n : ℕ) (hn : n ≤ maxLen) :
    (∀ (c : KVCache) (newK newV : List ℚ), c.bufV.length = c.bufK.length →
      newV.length = newK.length → c.index + newK.length ≤ c.bufK.length →
      (concatenateToCache c newK newV).index = c.index + newK.length ∧
      ∀ j, j < newK.length →
        (concatenateToCache c newK newV).bufK.getD (c.index + j) 0 = newK.getD j 0 ∧
        (concatenateToCache c newK newV).bufV.getD (c.index + j) 0 = newV.getD j 0) ∧
    (∀ t, t < n → (decodeOuts E q k v (initCache maxLen) 0 n).getD t 0 =
      prefillOut E q k v t n) := by
  constructor
  · intro c newK newV h1 h2 h3
    have h := concatenateToCache_inbounds c newK newV h1 h2 h3
    exact ⟨h.1, h.2.2.2.1⟩
  · intro t ht
    have hinv := decode_invariant E q k v maxLen n 0 (initCache maxLen)
      (by simp [initCache]) (by simp [initCache]) rfl
      (by intro j hj; omega) (by intro j hj; omega) (by omega) t ht
    simp only [Nat.zero_add] at hinv
    rw [hinv, prefillOut, attnRow, attnRow]
    rw [filter_range_le t (t + 1) (by omega), filter_range_le t n (by omega)]

/-- Witness for C4: the equivalence theorem applied to concrete streams
with `max_length = 4`, four decode steps, constant `E`, at step 2. -/
theorem c4_incremental_decode_matches_prefill_witness :
    (decodeOuts (fun _ => 1) (fun t => (t : ℚ)) (fun t => (t : ℚ) + 1)
      (fun t => 2 * (t : ℚ)) (initCache 4) 0 4).getD 2 0 =
      prefillOut (fun _ => 1) (fun t => (t : ℚ)) (fun t => (t : ℚ) + 1)
        (fun t => 2 * (t : ℚ)) 2 4 :=
  (c4_incremental_decode_matches_prefill (fun _ => 1) (fun t => (t : ℚ))
    (fun t => (t : ℚ) + 1) (fun t => 2 * (t : ℚ)) 4 4 (by decide)).2 2 (by decide)

/-! ### Claim C3: chunked/ring attention equals standard attention

`FlaxLLaMAAttention.__call__` takes the chunked path when
`scan_attention` is set and the query length exceeds the configured chunk
threshold; the blockwise kernel itself lives in `lwm.ring_attention`
(outside `src/`) and is modelled here from §4.4 of the spec: fixed-size
key chunks, skipping chunks entirely after the query, and a numerically
stable running-max log-sum-exp accumulation of softmax statistics. -/

/-- Running statistics carried across chunks: running maximum, rescaled
numerator accumulator, rescaled denominator (softmax mass) accumulator. -/
structure LseState where
  m : ℚ
  num : ℚ
  den : ℚ

/-- The new running maximum after folding a chunk's scores. -/
def chunkMax (score : ℕ → ℚ) (m0 : ℚ) (js : List ℕ) : ℚ :=
  js.foldl (fun acc j => max acc (score j)) m0

/-- Modelled from the spec: merging one chunk into the running statistics.
The old accumulators are rescaled by `E (m_old - m_new)` and the chunk's
terms enter at the new scale — the log-sum-exp-style softmax accumulation
of the ring exchange. -/
def lseChunk (E : ℚ → ℚ) (score v : ℕ → ℚ) (st : LseState) (js : List ℕ) : LseState :=
  ⟨chunkMax score st.m js,
   st.num * E (st.m - chunkMax score st.m js) +
     (js.map (fun j => E (score j - chunkMax score st.m js) * v j)).sum,
   st.den * E (st.m - chunkMax score st.m js) +
     (js.map (fun j => E (score j - chunkMax score st.m js))).sum⟩

/-- The key positions of chunk `kk` (chunk size `cs`) that survive the
causal mask for query position `i`, in a key sequence of length `n`. -/
def chunkIdx (n cs kk i : ℕ) : List ℕ :=
  (List.range n).filter
    (fun j => decide (kk * cs ≤ j) && decide (j < (kk + 1) * cs) && decide (j ≤ i))

/-- Modelled from the spec: one row of chunked/ring attention. Keys are
partitioned into `⌈n / cs⌉` fixed-size chunks; chunks lying entirely after
the query position are skipped; every processed chunk is merged into the
running statistics; the output is the final numerator over the final
denominator. -/
def chunkedAttnRow (E : ℚ → ℚ) (score v : ℕ → ℚ) (i n cs : ℕ) : ℚ :=
  ((List.range ((n + cs - 1) / cs)).foldl
    (fun st kk => if kk * cs ≤ i then lseChunk E score v st (chunkIdx n cs kk i) else st)
    ⟨0, 0, 0⟩).num /
  ((List.range ((n + cs - 1) / cs)).foldl
    (fun st kk => if kk * cs ≤ i then lseChunk E score v st (chunkIdx n cs kk i) else st)
    ⟨0, 0, 0⟩).den

lemma lseChunk_invariant (E : ℚ → ℚ) (hE : ∀ a b, E (a + b) = E a * E b)
    (score v : ℕ → ℚ) (st : LseState) (js : List ℕ) :
    (lseChunk E score v st js).num * E (lseChunk E score v st js).m =
        st.num * E st.m + (js.map (fun j => E (score j) * v j)).sum ∧
    (lseChunk E score v st js).den * E (lseChunk E score v st js).m =
        st.den * E st.m + (js.map (fun j => E (score j))).sum := by
  have hEsub : ∀ a b : ℚ, E (a - b) * E b = E a := by
    intro a b
    rw [← hE, sub_add_cancel]
  constructor
  · show (st.num * E (st.m - chunkMax score st.m js) +
        (js.map (fun j => E (score j - chunkMax score st.m js) * v j)).sum) *
          E (chunkMax score st.m js) = _
    rw [add_mul, mul_assoc, hEsub, ← List.sum_map_mul_right]
    congr 1
    congr 1
    apply List.map_congr_left
    intro j _
    rw [mul_right_comm, hEsub]
  · show (st.den * E (st.m - chunkMax score st.m js) +
        (js.map (fun j => E (score j - chunkMax score st.m js))).sum) *
          E (chunkMax score st.m js) = _
    rw [add_mul, mul_assoc, hEsub, ← List.sum_map_mul_right]
    congr 1
    congr 1
    apply List.map_congr_left
    intro j _
    rw [hEsub]

lemma chunkIdx_skipped (n cs kk i : ℕ) (h : i < kk * cs) : chunkIdx n cs kk i = [] := by
  rw [chunkIdx]
  apply List.filter_eq_nil_iff.mpr
  intro a _
  simp only [Bool.and_eq_true, decide_eq_true_eq, not_and]
  intro h1 _
  omega

lemma fold_lse_invariant (E : ℚ → ℚ) (hE : ∀ a b, E (a + b) = E a * E b)
    (score v : ℕ → ℚ) (i n cs : ℕ) :
    ∀ (KS : List ℕ) (st : LseState),
      ((KS.foldl
          (fun st kk => if kk * cs ≤ i then lseChunk E score v st (chunkIdx n cs kk i) else st)
          st).num *
        E ((KS.foldl
          (fun st kk => if kk * cs ≤ i then lseChunk E score v st (chunkIdx n cs kk i) else st)
          st).m) =
        st.num * E st.m +
          (KS.map (fun kk => ((chunkIdx n cs kk i).map (fun j => E (score j) * v j)).sum)).sum) ∧
      ((KS.foldl
          (fun st kk => if kk * cs ≤ i then lseChunk E score v st (chunkIdx n cs kk i) else st)
          st).den *
        E ((KS.foldl
          (fun st kk => if kk * cs ≤ i then lseChunk E score v st (chunkIdx n cs kk i) else st)
          st).m) =
        st.den * E st.m +
          (KS.map (fun kk => ((chunkIdx n cs kk i).map (fun j => E (score j))).sum)).sum) := by
  intro KS
  induction KS with
  | nil => intro st; simp
  | cons kk KS ih =>
    intro st
    rw [List.foldl_cons, List.map_cons, List.map_cons, List.sum_cons, List.sum_cons]
    by_cases hkk : kk * cs ≤ i
    · rw [if_pos hkk]
      have hstep := lseChunk_invariant E hE score v st (chunkIdx n cs kk i)
      have hrec := ih (lseChunk E score v st (chunkIdx n cs kk i))
      constructor
      · rw [hrec.1, hstep.1]
        ring
      · rw [hrec.2, hstep.2]
        ring
    · rw [if_neg hkk]
      have hempty : chunkIdx n cs kk i = [] := chunkIdx_skipped n cs kk i (by omega)
      have hrec := ih st
      rw [hempty]
      constructor
      · rw [hrec.1]
        simp
      · rw [hrec.2]
        simp

lemma filter_sum_split (f : ℕ → ℚ) (a b c : ℕ → Bool)
    (hc : ∀ j, c j = (a j || b j)) (hdisj : ∀ j, a j = true → b j = true → False) :
    ∀ l : List ℕ, ((l.filter c).map f).sum =
      ((l.filter a).map f).sum + ((l.filter b).map f).sum := by
  intro l
  induction l with
  | nil => simp
  | cons x l ih =>
    rw [List.filter_cons, List.filter_cons, List.filter_cons]
    have hcx := hc x
    cases hax : a x with
    | true =>
      have hbx : b x = false := by
        cases hbx2 : b x
        · rfl
        · exact (hdisj x hax hbx2).elim
      rw [hax, hbx] at hcx
      simp only [Bool.true_or] at hcx
      rw [hcx, hbx]
      simp only [List.map_cons, List.sum_cons, if_true]
      simp only [Bool.false_eq_true, if_false]
      rw [ih]
      ring
    | false =>
      rw [hax] at hcx
      simp only [Bool.false_or] at hcx
      cases hbx : b x with
      | true =>
        rw [hcx, hbx]
        simp only [List.map_cons, List.sum_cons, if_true]
        simp only [Bool.false_eq_true, if_false]
        rw [ih]
        ring
      | false =>
        rw [hcx, hbx]
        simp only [Bool.false_eq_true, if_false]
        exact ih

lemma causal_chunk_bool (i a b : ℕ) (hab : a ≤ b) : ∀ j,
    (decide (j ≤ i) && decide (j < b)) =
      ((decide (j ≤ i) && decide (j < a)) ||
        (decide (a ≤ j) && decide (j < b) && decide (j ≤ i))) := by
  intro j
  simp only [← Bool.decide_and, ← Bool.decide_or]
  exact decide_eq_decide.mpr (by omega)

lemma causal_chunk_disj (i a b : ℕ) : ∀ j,
    (decide (j ≤ i) && decide (j < a)) = true →
      (decide (a ≤ j) && decide (j < b) && decide (j ≤ i)) = true → False := by
  intro j h1 h2
  simp only [Bool.and_eq_true, decide_eq_true_eq] at h1 h2
  omega

lemma chunkSum_accum (f : ℕ → ℚ) (i n cs : ℕ) :
    ∀ m, ((List.range m).map (fun kk => ((chunkIdx n cs kk i).map f).sum)).sum =
      (((List.range n).filter (fun j => decide (j ≤ i) && decide (j < m * cs))).map f).sum := by
  intro m
  induction m with
  | zero =>
    have hnil : (List.range n).filter
        (fun j => decide (j ≤ i) && decide (j < 0 * cs)) = [] := by
      apply List.filter_eq_nil_iff.mpr
      intro j _
      simp
    rw [hnil]
    simp
  | succ m ih =>
    rw [List.range_succ, List.map_append, List.sum_append, ih]
    simp only [List.map_cons, List.map_nil, List.sum_cons, List.sum_nil]
    have hab : m * cs ≤ (m + 1) * cs := Nat.mul_le_mul_right cs (by omega)
    rw [filter_sum_split f (fun j => decide (j ≤ i) && decide (j < m * cs))
      (fun j => decide (m * cs ≤ j) && decide (j < (m + 1) * cs) && decide (j ≤ i))
      (fun j => decide (j ≤ i) && decide (j < (m + 1) * cs))
      (causal_chunk_bool i (m * cs) ((m + 1) * cs) hab)
      (causal_chunk_disj i (m * cs) ((m + 1) * cs)) (List.range n)]
    rw [chunkIdx]
    ring

lemma ceil_div_mul_ge (n cs : ℕ) (hcs : 0 < cs) (hn : 0 < n) :
    n ≤ ((n + cs - 1) / cs) * cs := by
  have hdm := Nat.div_add_mod (n + cs - 1) cs
  have hmod : (n + cs - 1) % cs < cs := Nat.mod_lt _ hcs
  rw [Nat.mul_comm]
  set X := cs * ((n + cs - 1) / cs) with hX
  omega

/-- C3: the chunked/ring attention row computes exactly the same function
as the standard-mode masked softmax attention row, for every chunk size,
every score/value stream, and every positive sum-to-product exponential
`E` — the blockwise accumulation is an optimization, not an
approximation; agreement is exact in exact arithmetic. -/
theorem c3_chunked_attention_matches_standard (E : ℚ → ℚ) (score v : ℕ → ℚ)
    (i n cs : ℕ) (hE : ∀ a b, E (a + b) = E a * E b) (hpos : ∀ a, 0 < E a)
    (hcs : 0 < cs) (hin : i < n) :
    chunkedAttnRow E score v i n cs = attnRow E score v (fun j => decide (j ≤ i)) n := by
  rw [chunkedAttnRow, attnRow]
  have hfold := fold_lse_invariant E hE score v i n cs
    (List.range ((n + cs - 1) / cs)) ⟨0, 0, 0⟩
  set F := (List.range ((n + cs - 1) / cs)).foldl
    (fun st kk => if kk * cs ≤ i then lseChunk E score v st (chunkIdx n cs kk i) else st)
    (⟨0, 0, 0⟩ : LseState) with hF
  have hnum0 : F.num * E F.m = ((List.range ((n + cs - 1) / cs)).map
      (fun kk => ((chunkIdx n cs kk i).map (fun j => E (score j) * v j)).sum)).sum := by
    have h := hfold.1
    simpa using h
  have hden0 : F.den * E F.m = ((List.range ((n + cs - 1) / cs)).map
      (fun kk => ((chunkIdx n cs kk i).map (fun j => E (score j))).sum)).sum := by
    have h := hfold.2
    simpa using h
  rw [chunkSum_accum] at hnum0 hden0
  have hbound : n ≤ ((n + cs - 1) / cs) * cs := ceil_div_mul_ge n cs hcs (by omega)
  have hfc : (List.range n).filter
      (fun j => decide (j ≤ i) && decide (j < ((n + cs - 1) / cs) * cs)) =
      (List.range n).filter (fun j => decide (j ≤ i)) := by
    apply List.filter_congr
    intro j hj
    rw [List.mem_range] at hj
    have hjlt : decide (j < ((n + cs - 1) / cs) * cs) = true :=
      decide_eq_true (Nat.lt_of_lt_of_le hj hbound)
    rw [hjlt, Bool.and_true]
  rw [hfc] at hnum0 hden0
  have hmem : i ∈ (List.range n).filter (fun j => decide (j ≤ i)) :=
    List.mem_filter.mpr ⟨List.mem_range.mpr hin, by simp⟩
  have hdpos : 0 < (((List.range n).filter (fun j => decide (j ≤ i))).map
      (fun j => E (score j))).sum := by
    apply List.sum_pos
    · intro x hx
      rw [List.mem_map] at hx
      obtain ⟨j, _, hj2⟩ := hx
      rw [← hj2]
      exact hpos _
    · exact List.ne_nil_of_mem (List.mem_map_of_mem _ hmem)
  have hEm : E F.m ≠ 0 := ne_of_gt (hpos _)
  have hFd : F.den ≠ 0 := by
    intro h0
    rw [h0, zero_mul] at hden0
    exact absurd hden0.symm (ne_of_gt hdpos)
  rw [← hnum0, ← hden0, mul_div_mul_right _ _ hEm]

/-- Witness for C3: the equivalence theorem at the claim's concrete small
shape — sequence length 8, chunk size 2, query position 5 — with the
constant positive exponential. -/
theorem c3_chunked_attention_matches_standard_witness :
    chunkedAttnRow (fun _ => 1) (fun j => (j : ℚ)) (fun j => (j : ℚ) + 2) 5 8 2 =
      attnRow (fun _ => 1) (fun j => (j : ℚ)) (fun j => (j : ℚ) + 2)
        (fun j => decide (j ≤ 5)) 8 :=
  c3_chunked_attention_matches_standard (fun _ => 1) (fun j => (j : ℚ))
    (fun j => (j : ℚ) + 2) 5 8 2 (by intro a b; norm_num) (by intro a; norm_num)
    (by decide) (by decide)

/-! ### Claim C1: S6 forward recurrence -/

/-- Embeds the state update of `S6.forward` (the
`DIFFERENT_H_STATES_RECURRENT_UPDATE_MECHANISM = 0` branch, which is the
one that runs): `h = torch.zeros(...)` followed by the single elementwise
update `h = einsum('bldn,bldn->bldn', dA, h) + rearrange(x, "b l d -> b l d 1") * dB`.
The einsum is an elementwise product with the just-allocated all-zero `h`,
so the state at every time step is `x[t,d] * dB[t,d,s]`; no value flows
from time `t - 1` to time `t`. Batch is collapsed; the indices are time
`t`, channel `d`, state `s`, and `dA`, `dB` are the discretized system
from `S6.discretization` taken as inputs. -/
def s6ForwardH (dA dB : ℕ → ℕ → ℕ → ℚ) (x : ℕ → ℕ → ℚ) (t d s : ℕ) : ℚ :=
  dA t d s * 0 + x t d * dB t d s

/-- Embeds `y = einsum('bln,bldn->bld', C, h)` of `S6.forward`: contraction
of the per-timestep coefficients `C` with the state over the state
dimension of size `stateSize`. -/
def s6ForwardY (dA dB : ℕ → ℕ → ℕ → ℚ) (x : ℕ → ℕ → ℚ) (Cm : ℕ → ℕ → ℚ)
    (stateSize t d : ℕ) : ℚ :=
  ((List.range stateSize).map (fun s => Cm t s * s6ForwardH dA dB x t d s)).sum

/-- Modelled from the spec: the claimed latent-state time recurrence
`h[t] = dA[t] ⊙ h[t-1] + x[t] ⊙ dB[t]`, started from `h[-1] = 0`. -/
def s6SpecH (dA dB : ℕ → ℕ → ℕ → ℚ) (x : ℕ → ℕ → ℚ) : ℕ → ℕ → ℕ → ℚ
  | 0, d, s => dA 0 d s * 0 + x 0 d * dB 0 d s
  | t + 1, d, s => dA (t + 1) d s * s6SpecH dA dB x t d s + x (t + 1) d * dB (t + 1) d s

/-- Modelled from the spec: the claimed output `y[t] = C[t] · h[t]`
(contraction over the state dimension). -/
def s6SpecY (dA dB : ℕ → ℕ → ℕ → ℚ) (x : ℕ → ℕ → ℚ) (Cm : ℕ → ℕ → ℚ)
    (stateSize t d : ℕ) : ℚ :=
  ((List.range stateSize).map (fun s => Cm t s * s6SpecH dA dB x t d s)).sum

/-- C1 failing input: at the degenerate single-state single-channel case
with constant discretized system `dA = 1/2`, `dB = 1`, coefficients
`C = 1` and inputs `x = 1`, the code's output at time 1 is `1` — the `dA`
term multiplies the freshly zero-initialized state elementwise, never the
previous time step's state — while the claimed exponential-decay
recurrence gives `dA[1]·h[0] + x[1]·dB[1] = 3/2`. -/
theorem c1_s6_forward_no_time_recurrence :
    s6ForwardY (fun _ _ _ => 1 / 2) (fun _ _ _ => 1) (fun _ _ => 1) (fun _ _ => 1) 1 1 0 = 1 ∧
    s6SpecY (fun _ _ _ => 1 / 2) (fun _ _ _ => 1) (fun _ _ => 1) (fun _ _ => 1) 1 1 0 = 3 / 2 ∧
    (1 : ℚ) ≠ 3 / 2 := by
  refine ⟨?_, ?_, by norm_num⟩
  · simp [s6ForwardY, s6ForwardH, List.range_succ]
  · simp [s6SpecY, s6SpecH, List.range_succ]
    norm_num

/-! ### Claim C9: MambaBlock convolution stage -/

/-- Embeds `torch.nn.Conv1d(seq_len, seq_len, kernel_size=3, padding=1)`
as instantiated in `MambaBlock.__init__` and applied to `x_proj` of shape
`[seq_len, 2*d_model]` in `forward`: Conv1d convolves over the LAST axis
and treats the first as channels, so here the time axis (`seq_len`) is the
channel axis and the feature axis (size `len = 2*d_model`) is the spatial
axis. `out[o, p] = bias[o] + Σ_{c < inCh} Σ_{kk < 3} w[o, c, kk] *
x_pad[c, p + kk]` with one zero column of padding on each side; every
output time step `o` mixes every input time step `c`. -/
def conv1dK3P1 (inCh len : ℕ) (w : ℕ → ℕ → ℕ → ℚ) (bias : ℕ → ℚ)
    (x : ℕ → ℕ → ℚ) (o p : ℕ) : ℚ :=
  bias o + ((List.range inCh).map (fun c =>
    ((List.range 3).map (fun kk =>
      if 1 ≤ p + kk ∧ p + kk ≤ len then w o c kk * x c (p + kk - 1) else 0)).sum)).sum

/-- Embeds the convolution stage of `MambaBlock.forward`:
`x_conv = self.conv(x_proj)` followed by the elementwise product with
`mask = torch.tril(torch.ones(seq_len, 2*d_model))` — a lower-triangular
(time, feature) matrix, so the mask keeps entry `(t, f)` iff the feature
index `f` is at most the time index `t`. -/
def mambaConvStage (seqLen dm2 : ℕ) (w : ℕ → ℕ → ℕ → ℚ) (bias : ℕ → ℚ)
    (x : ℕ → ℕ → ℚ) (t f : ℕ) : ℚ :=
  conv1dK3P1 seqLen dm2 w bias x t f * (if f ≤ t then 1 else 0)

/-- C9 failing input: with `seq_len = 2`, `2*d_model = 2`, all-ones
convolution weights and zero bias, two inputs that agree at time 0 (they
differ only in the time-1 feature-0 entry) produce different convolution
stage outputs at time 0 — the "causal" convolution's output at time `t`
depends on inputs at times after `t`, because time is the Conv1d channel
axis and the triangular mask runs over (time, feature), not (time, time). -/
theorem c9_mamba_conv_not_time_causal :
    (fun _ _ => (0 : ℚ)) 0 0 = (fun td f => if td = 1 ∧ f = 0 then (1 : ℚ) else 0) 0 0 ∧
    (fun _ _ => (0 : ℚ)) 0 1 = (fun td f => if td = 1 ∧ f = 0 then (1 : ℚ) else 0) 0 1 ∧
    mambaConvStage 2 2 (fun _ _ _ => 1) (fun _ => 0) (fun _ _ => (0 : ℚ)) 0 0 = 0 ∧
    mambaConvStage 2 2 (fun _ _ _ => 1) (fun _ => 0)
      (fun td f => if td = 1 ∧ f = 0 then (1 : ℚ) else 0) 0 0 = 1 ∧
    (0 : ℚ) ≠ 1 := by
  refine ⟨rfl, rfl, ?_, ?_, by norm_num⟩
  · simp [mambaConvStage, conv1dK3P1, List.range_succ]
  · simp [mambaConvStage, conv1dK3P1, List.range_succ]

/-! ### Claim C7: RMSNorm scale invariance -/

/-- Embeds `RMSNorm`: `_norm(x) = x * jax.lax.rsqrt(mean(x², -1) + eps)`
followed in `__call__` by the elementwise product with the learned scale
vector (`kernel`); `rsqrt` is the reciprocal square root and the mean runs
over the feature axis of size `n`. The float32 promotion and the cast back
are identities over `ℝ`. -/
noncomputable def rmsnorm (n : ℕ) (eps : ℝ) (w x : Fin n → ℝ) : Fin n → ℝ :=
  fun i => x i * (Real.sqrt ((∑ j, x j ^ 2) / n + eps))⁻¹ * w i

/-- C7 counterexample: with the code's positive `eps`, RMSNorm is not
exactly scale invariant. At `dim = 1`, `eps = 10⁻⁶`, unit scale and
`x = (1)`, scaling the input by `c = 2` changes the output:
`2/√(4 + eps) ≠ 1/√(1 + eps)` — equality would force `eps = 0`. -/
theorem c7_rmsnorm_scale_invariance_counterexample :
    0 < (2 : ℝ) ∧ (fun _ : Fin 1 => (1 : ℝ)) ≠ 0 ∧
    rmsnorm 1 (1 / 1000000) (fun _ => 1)
        (fun i => 2 * (fun _ : Fin 1 => (1 : ℝ)) i) ≠
      rmsnorm 1 (1 / 1000000) (fun _ => 1) (fun _ : Fin 1 => (1 : ℝ)) := by
  refine ⟨by norm_num, ?_, ?_⟩
  · intro h
    simpa using congrFun h 0
  · intro h
    have h0 := congrFun h 0
    rw [rmsnorm, rmsnorm] at h0
    simp only [Fin.sum_univ_one, mul_one] at h0
    norm_num at h0
    have hsq := congrArg (fun z => z ^ 2) h0
    simp only [mul_pow, div_pow] at hsq
    rw [Real.sq_sqrt (by norm_num : (0 : ℝ) ≤ 1000000),
      Real.sq_sqrt (by norm_num : (0 : ℝ) ≤ 1000001),
      Real.sq_sqrt (by norm_num : (0 : ℝ) ≤ 4000001)] at hsq
    norm_num at hsq

/-- C7 as amended: RMSNorm computed with `eps = 0` is exactly scale
invariant — `norm(c·x) = norm(x)` for every positive scalar `c`, every
scale vector and every nonzero input; with the code's positive `eps` the
identity holds only approximately (see the counterexample). -/
theorem c7_rmsnorm_scale_invariant_eps_zero (n : ℕ) (w x : Fin n → ℝ) (c : ℝ)
    (hc : 0 < c) (hx : x ≠ 0) :
    rmsnorm n 0 w (fun i => c * x i) = rmsnorm n 0 w x := by
  have hcne : c ≠ 0 := ne_of_gt hc
  funext i
  show c * x i * (Real.sqrt ((∑ j, (c * x j) ^ 2) / n + 0))⁻¹ * w i =
    x i * (Real.sqrt ((∑ j, x j ^ 2) / n + 0))⁻¹ * w i
  have hsum : (∑ j, (c * x j) ^ 2) = c ^ 2 * (∑ j, x j ^ 2) := by
    rw [Finset.mul_sum]
    apply Finset.sum_congr rfl
    intro j _
    ring
  rw [hsum, add_zero, add_zero, mul_div_assoc,
    Real.sqrt_mul (by positivity) ((∑ j, x j ^ 2) / n), Real.sqrt_sq hc.le, mul_inv]
  have hcc : c * x i * (c⁻¹ * (Real.sqrt ((∑ j, x j ^ 2) / (n : ℝ)))⁻¹) * w i =
      (c * c⁻¹) * (x i * (Real.sqrt ((∑ j, x j ^ 2) / (n : ℝ)))⁻¹ * w i) := by
    ring
  rw [hcc, mul_inv_cancel₀ hcne, one_mul]

/-- Witness for C7's amended theorem: scale invariance at `eps = 0` with
`dim = 1`, unit scale, `x = (1)` and `c = 2`. -/
theorem c7_rmsnorm_scale_invariant_eps_zero_witness :
    0 < (2 : ℝ) ∧ (fun _ : Fin 1 => (1 : ℝ)) ≠ 0 ∧
    rmsnorm 1 0 (fun _ => 1) (fun i => 2 * (fun _ : Fin 1 => (1 : ℝ)) i) =
      rmsnorm 1 0 (fun _ => 1) (fun _ : Fin 1 => (1 : ℝ)) :=
  ⟨by norm_num, by intro h; simpa using congrFun h 0,
    c7_rmsnorm_scale_invariant_eps_zero 1 (fun _ => 1) (fun _ : Fin 1 => (1 : ℝ)) 2
      (by norm_num) (by intro h; simpa using congrFun h 0)⟩

/-! ### Claim C8: rotary position embedding -/

/-- The rotation angle of `precompute_freqs_cis` for position `t` and
coordinate pair `i`: `t · (1 / theta ^ ((2 i) / dim))` — frequency `i` has
angular rate `theta ^ (-(2 i) / dim)`, written as in the code with the
reciprocal of a real power. -/
noncomputable def rotAngle (theta : ℝ) (dim t i : ℕ) : ℝ :=
  t * (1 / theta ^ (((2 * i : ℕ) : ℝ) / (dim : ℝ)))

/-- Embeds the `freqs_cis` table of `precompute_freqs_cis`: the unit
complex number `cos(angle) + i sin(angle)` for position `t` and pair `i`. -/
noncomputable def freqsCis (theta : ℝ) (dim t i : ℕ) : ℂ :=
  ⟨Real.cos (rotAngle theta dim t i), Real.sin (rotAngle theta dim t i)⟩

/-- Embeds `apply_rotary_emb` for one head vector: the reshape to
`(..., -1, 2)` reads adjacent coordinate pairs `(x[2m], x[2m+1])` as
complex numbers, multiplies by the position's `freqs_cis` entry for pair
`m`, and the final stack/reshape writes real and imaginary parts back to
coordinates `2m` and `2m + 1`. -/
noncomputable def applyRotaryEmb (theta : ℝ) (dim t : ℕ) (x : ℕ → ℝ) : ℕ → ℝ :=
  fun j =>
    if j % 2 = 0 then
      ((⟨x (2 * (j / 2)), x (2 * (j / 2) + 1)⟩ : ℂ) * freqsCis theta dim t (j / 2)).re
    else
      ((⟨x (2 * (j / 2)), x (2 * (j / 2) + 1)⟩ : ℂ) * freqsCis theta dim t (j / 2)).im

/-- Embeds the full `apply_rotary_emb`, which rotates the query and key
projections together and returns the pair. -/
noncomputable def applyRotaryEmbQK (theta : ℝ) (dim t : ℕ) (q k : ℕ → ℝ) :
    (ℕ → ℝ) × (ℕ → ℝ) :=
  (applyRotaryEmb theta dim t q, applyRotaryEmb theta dim t k)

lemma applyRotaryEmb_even (theta : ℝ) (dim t : ℕ) (x : ℕ → ℝ) (m : ℕ) :
    applyRotaryEmb theta dim t x (2 * m) =
      ((⟨x (2 * m), x (2 * m + 1)⟩ : ℂ) * freqsCis theta dim t m).re := by
  have h1 : 2 * m % 2 = 0 := by omega
  have h2 : 2 * m / 2 = m := by omega
  simp [applyRotaryEmb, h1, h2]

lemma applyRotaryEmb_odd (theta : ℝ) (dim t : ℕ) (x : ℕ → ℝ) (m : ℕ) :
    applyRotaryEmb theta dim t x (2 * m + 1) =
      ((⟨x (2 * m), x (2 * m + 1)⟩ : ℂ) * freqsCis theta dim t m).im := by
  have h1 : (2 * m + 1) % 2 = 1 := by omega
  have h2 : (2 * m + 1) / 2 = m := by omega
  simp [applyRotaryEmb, h1, h2]

lemma applyRotaryEmb_pair (theta : ℝ) (dim t : ℕ) (x : ℕ → ℝ) (m : ℕ) :
    (⟨applyRotaryEmb theta dim t x (2 * m), applyRotaryEmb theta dim t x (2 * m + 1)⟩ : ℂ) =
      (⟨x (2 * m), x (2 * m + 1)⟩ : ℂ) * freqsCis theta dim t m := by
  apply Complex.ext
  · exact applyRotaryEmb_even theta dim t x m
  · exact applyRotaryEmb_odd theta dim t x m

lemma freqsCis_mul_add (theta : ℝ) (dim p d i : ℕ) :
    freqsCis theta dim p i * freqsCis theta dim d i = freqsCis theta dim (p + d) i := by
  have hangle : rotAngle theta dim p i + rotAngle theta dim d i =
      rotAngle theta dim (p + d) i := by
    rw [rotAngle, rotAngle, rotAngle]
    push_cast
    ring
  apply Complex.ext
  · show Real.cos (rotAngle theta dim p i) * Real.cos (rotAngle theta dim d i) -
        Real.sin (rotAngle theta dim p i) * Real.sin (rotAngle theta dim d i) =
      Real.cos (rotAngle theta dim (p + d) i)
    rw [← hangle, Real.cos_add]
  · show Real.cos (rotAngle theta dim p i) * Real.sin (rotAngle theta dim d i) +
        Real.sin (rotAngle theta dim p i) * Real.cos (rotAngle theta dim d i) =
      Real.sin (rotAngle theta dim (p + d) i)
    rw [← hangle, Real.sin_add]
    ring

lemma applyRotaryEmb_add (theta : ℝ) (dim p d : ℕ) (x : ℕ → ℝ) :
    applyRotaryEmb theta dim (p + d) x =
      applyRotaryEmb theta dim d (applyRotaryEmb theta dim p x) := by
  funext j
  rcases Nat.even_or_odd j with ⟨m, hm⟩ | ⟨m, hm⟩
  · have hj : j = 2 * m := by omega
    subst hj
    rw [applyRotaryEmb_even, applyRotaryEmb_even, applyRotaryEmb_pair, mul_assoc,
      freqsCis_mul_add]
  · have hj : j = 2 * m + 1 := by omega
    subst hj
    rw [applyRotaryEmb_odd, applyRotaryEmb_odd, applyRotaryEmb_pair, mul_assoc,
      freqsCis_mul_add]

/-- C8: the rotary embedding rotates each adjacent coordinate pair
`(x[2m], x[2m+1])` of the query and key by the classic 2D rotation at
angle `t · theta^(-2m/dim)` — even coordinate `x₀cos − x₁sin`, odd
coordinate `x₀sin + x₁cos` — and the rotation angles are additive in
position: applying at position `p + d` equals applying at `p` and then at
relative offset `d`, for the query/key pair. -/
theorem c8_rotary_pair_rotation_additive (theta : ℝ) (dim p d t : ℕ) (q k : ℕ → ℝ) :
    (∀ m : ℕ,
      applyRotaryEmb theta dim t q (2 * m) =
        q (2 * m) * Real.cos (rotAngle theta dim t m) -
          q (2 * m + 1) * Real.sin (rotAngle theta dim t m) ∧
      applyRotaryEmb theta dim t q (2 * m + 1) =
        q (2 * m) * Real.sin (rotAngle theta dim t m) +
          q (2 * m + 1) * Real.cos (rotAngle theta dim t m)) ∧
    applyRotaryEmbQK theta dim (p + d) q k =
      applyRotaryEmbQK theta dim d (applyRotaryEmbQK theta dim p q k).1
        (applyRotaryEmbQK theta dim p q k).2 := by
  refine ⟨?_, ?_⟩
  · intro m
    constructor
    · rw [applyRotaryEmb_even]
      show q (2 * m) * Real.cos (rotAngle theta dim t m) -
          q (2 * m + 1) * Real.sin (rotAngle theta dim t m) = _
      rfl
    · rw [applyRotaryEmb_odd]
      show q (2 * m) * Real.sin (rotAngle theta dim t m) +
          q (2 * m + 1) * Real.cos (rotAngle theta dim t m) = _
      rfl
  · show (applyRotaryEmb theta dim (p + d) q, applyRotaryEmb theta dim (p + d) k) = _
    rw [applyRotaryEmb_add theta dim p d q, applyRotaryEmb_add theta dim p d k]
    rfl
